import Mathlib

/-!
Shallow embedding of the scheduler core of
`src/coffea/processor/work_queue_tools.py` (the coffea Work Queue
executor), together with theorems settling the specification's claims
about chunk-size estimation, task splitting and resubmission,
accumulation scheduling, and configuration validation.

Machine reals are modelled by `ℚ` (the Python computations involved are
exact on the inputs considered), Python ints by `ℕ`/`ℤ`, raised
exceptions by `Except PyError`.
-/

namespace Coffea

/-- Exceptions the embedded code can raise, one constructor per modelled
raise site:
* `permanentFailure` — `RuntimeError("item ... failed permanently. No more retries left.")`
  in `CoffeaWQTask.resubmit` (line 294);
* `cannotSplit` — `RuntimeError("processing task cannot be split any further.")`
  in `ProcCoffeaWQTask.split` (line 507);
* `accumConfigError` — `RuntimeError("A minimum of two chunks should be used when accumulating")`
  in `_submit_accum_tasks` (line 1010);
* `unknownTargetKeyError` — `KeyError("dynamic chunksize resource ... is unknown.")`
  in `_check_dynamic_chunksize_targets` (line 1117);
* `memoryKeyError` — the `KeyError` raised by the subscript
  `resource_targets["memory"]` in `_compute_chunksize` (line 1200) when the
  dict has no `"memory"` key;
* `envWrapperValueError` — the `ValueError` in `work_queue_main` (line 640);
* `compressionNameError` — line 645 of `work_queue_main` is
  `self.compression = 1`, and `self` is an unbound name inside a module-level
  function, so reaching it raises `NameError`;
* `resultReadNameError` — line 59 of `accumulate_result_files` is
  `result_f = _decompress(result_f)`, which reads the local `result_f`
  before any assignment to it, raising `NameError`;
* `zeroDivision` — `math.ceil(total / target_chunksize)` in
  `ProcCoffeaWQTask.split` (line 515) with `target_chunksize == 0`. -/
inductive PyError where
  | permanentFailure
  | cannotSplit
  | accumConfigError
  | unknownTargetKeyError
  | memoryKeyError
  | envWrapperValueError
  | compressionNameError
  | resultReadNameError
  | zeroDivision
  deriving Repr, DecidableEq

/-- `WorkItem` (imported from `executor.py`, constructed at lines 526–534 of
the source): a contiguous slice `[entrystart, entrystop)` of one input file.
Per the specification's data model (§3) its size is
`range_stop - range_start`. -/
structure WorkItem where
  dataset : String
  filename : String
  treename : String
  entrystart : ℕ
  entrystop : ℕ
  fileuuid : String
  usermeta : Option String := none
  deriving Repr, DecidableEq

/-- `len(item)`: the number of events spanned by the slice. -/
def WorkItem.size (w : WorkItem) : ℕ := w.entrystop - w.entrystart

/-- Work Queue task result codes as read by `CoffeaWQTask.resubmit`:
`success` stands for `0`, `resourceExhaustion` for
`wq.WORK_QUEUE_RESULT_RESOURCE_EXHAUSTION`, `otherFailure` for any other
nonzero code. -/
inductive WQResultCode where
  | success
  | resourceExhaustion
  | otherFailure
  deriving Repr, DecidableEq

/-- The fields of a `ProcCoffeaWQTask` read by the lifecycle logic:
its work item, its `retries_to_go` counter (set to `executor.retries` on
construction, line 217), and its backend result code (`none` while the
task is unresolved). -/
structure ProcTask where
  item : WorkItem
  retries_to_go : ℕ
  result : Option WQResultCode
  deriving Repr, DecidableEq

/-- A Python `dict` of dynamic-chunksize targets (`executor.dynamic_chunksize`):
association list from resource-dimension name to target value; a key absent
from the list is absent from the dict. -/
abbrev TargetsDict := List (String × ℚ)

/-- The `environment_file` object: all `work_queue_main` reads from it is
the truthiness of its `wrapper` attribute. -/
structure EnvironmentFile where
  wrapper : Bool
  deriving Repr, DecidableEq

/-- The scheduler-facing executor configuration fields read by the embedded
functions. -/
structure ExecutorConfig where
  chunksize : ℕ
  dynamic_chunksize : Option TargetsDict
  retries : ℕ
  split_on_exhaustion : Bool
  chunks_per_accum : ℕ
  chunks_accum_in_mem : ℕ
  compression : Option ℕ
  environment_file : Option EnvironmentFile
  deriving Repr, DecidableEq

/-- `math.ceil(a / b)` for natural `a`, `b` with `b ≠ 0` (callers guard
`b = 0`, where Python would raise `ZeroDivisionError`). -/
def ceilDiv (a b : ℕ) : ℕ := (a + b - 1) / b

/-- The `while start < self.item.entrystop` loop of `ProcCoffeaWQTask.split`
(lines 522–539): cut `[start, stop)` into consecutive pieces of length
`actual`, the last possibly shorter.  For `actual = 0` the Python loop would
not terminate; all call sites pass `actual ≥ 1`. -/
def splitRanges (actual start stop : ℕ) : List (ℕ × ℕ) :=
  if h : start < stop ∧ 0 < actual then
    (start, min stop (start + actual)) :: splitRanges actual (min stop (start + actual)) stop
  else
    []
termination_by stop - start
decreasing_by
  have h1 : start < stop := h.1
  have h2 : 0 < actual := h.2
  have : start < min stop (start + actual) := by omega
  omega

/-- `ProcCoffeaWQTask.split` (lines 503–541).  `executorRetries` is
`executor.retries` (the fresh children are built by `__init__`, which sets
`retries_to_go = executor.retries`, line 217); `currentChunksize` is
`queue.current_chunksize`.  Stats bookkeeping (lines 518–519) has no effect
on the returned tasks and is not modelled. -/
def ProcTask.split (executorRetries currentChunksize : ℕ) (t : ProcTask) :
    Except PyError (List ProcTask) :=
  let total := t.item.size
  if total < 2 then
    .error .cannotSplit
  else
    let target_chunksize := if total ≤ currentChunksize then ceilDiv total 2 else currentChunksize
    if target_chunksize = 0 then
      .error .zeroDivision
    else
      let n := max (ceilDiv total target_chunksize) 1
      let actual_chunksize := ceilDiv total n
      .ok ((splitRanges actual_chunksize t.item.entrystart t.item.entrystop).map fun r =>
        { item := { t.item with entrystart := r.1, entrystop := r.2 }
          retries_to_go := executorRetries
          result := none })

/-- A resolved task sitting in the `tasks_to_accumulate` list.  All that
`_submit_accum_tasks` reads from a task is its sort key `t.fout_size`
(the size of its output artifact, set in `CoffeaWQ.wait`, line 132); the
`id` field keeps distinct tasks distinct. -/
structure PendingTask where
  id : ℕ
  fout_size : ℚ
  deriving Repr, DecidableEq

/-- `_group_lst(lst, n)` (lines 1042–1044): the consecutive slices
`lst[i : i + n]` for `i in range(0, len(lst), n)`.  Meaningful for `n ≥ 1`
(Python raises on a zero step). -/
def _group_lst (lst : List PendingTask) (n : ℕ) : List (List PendingTask) :=
  if h : 0 < n ∧ lst ≠ [] then
    lst.take n :: _group_lst (lst.drop n) n
  else
    []
termination_by lst.length
decreasing_by
  have h1 : 0 < n := h.1
  have h2 : lst ≠ [] := h.2
  have : 0 < lst.length := List.length_pos.mpr h2
  simp only [List.length_drop]
  omega

/-- The `for next_to_accum in _group_lst(...)` loop of `_submit_accum_tasks`
(lines 1016–1039).  First component: the groups for which an
`AccumCoffeaWQTask` was created and submitted; second component: the value
returned as the new pending list (`[]` after a run over all groups, the
offending group at an early `return`). -/
def _accumLoop (chunks_per_accum : ℕ) (force_last_accum : Bool) :
    List (List PendingTask) → List (List PendingTask) × List PendingTask
  | [] => ([], [])
  | g :: gs =>
    if g.length < 2 then
      ([], g)
    else if g.length < chunks_per_accum ∧ force_last_accum = false then
      ([], g)
    else
      let r := _accumLoop chunks_per_accum force_last_accum gs
      (g :: r.1, r.2)

/-- `_submit_accum_tasks` (lines 997–1039).  Of the source arguments
`(executor, fn_wrapper, infile_function, tasks_to_accumulate,
force_last_accum, tmpdir)` only `executor.chunks_per_accum`,
`executor.chunks_accum_in_mem`, the pending list and the force flag affect
the scheduling decision; task-object construction and queue submission are
side effects.  Returns the groups submitted for accumulation together with
the new pending list (the source's return value). -/
def _submit_accum_tasks (chunks_per_accum chunks_accum_in_mem : ℕ)
    (tasks_to_accumulate : List PendingTask) (force_last_accum : Bool) :
    Except PyError (List (List PendingTask) × List PendingTask) :=
  if chunks_per_accum < 2 ∨ chunks_accum_in_mem < 2 then
    .error .accumConfigError
  else if tasks_to_accumulate.length < 2 * chunks_per_accum - 1 ∧ force_last_accum = false then
    .ok ([], tasks_to_accumulate)
  else
    let sorted := tasks_to_accumulate.mergeSort fun a b => decide (a.fout_size ≤ b.fout_size)
    .ok (_accumLoop chunks_per_accum force_last_accum (_group_lst sorted chunks_per_accum))

/-- `CoffeaWQTask.resubmit` (lines 292–315), restricted to processing tasks.
`clone` rebuilds a task over the same item (fresh `retries_to_go =
executor.retries`), which `resubmit` immediately overwrites with
`self.retries_to_go - 1` (line 304).  The queue submissions themselves are
side effects; the returned list is the set of tasks submitted. -/
def ProcTask.resubmit (cfg : ExecutorConfig) (currentChunksize : ℕ) (t : ProcTask) :
    Except PyError (List ProcTask) :=
  if t.retries_to_go < 1 ∨ cfg.split_on_exhaustion = false then
    .error .permanentFailure
  else if t.result = some .resourceExhaustion then
    t.split cfg.retries currentChunksize
  else
    .ok [{ item := t.item, retries_to_go := t.retries_to_go - 1, result := none }]

/-- One element of `task_reports` (appended at lines 779–785): the triplet
`(events, wall_time, memory)` observed for a successful processing task. -/
structure TaskReport where
  events : ℕ
  wall_time : ℚ
  memory : ℚ
  deriving Repr, DecidableEq

/-- `numpy.around` / Python banker's rounding: round to the nearest integer,
halves to the even neighbour. -/
def roundHalfEven (x : ℚ) : ℤ :=
  let f := ⌊x⌋
  let r := x - (f : ℚ)
  if r < 1 / 2 then f
  else if 1 / 2 < r then f + 1
  else if Even f then f else f + 1

/-- `numpy.quantile(xs, q, interpolation="nearest")` for `0 ≤ q ≤ 1` and a
nonempty `xs`: the element of the sorted data whose index is
`q * (len(xs) - 1)` rounded to the nearest integer (halves to even). -/
def quantileNearest (xs : List ℚ) (q : ℚ) : ℚ :=
  let sorted := xs.mergeSort fun a b => decide (a ≤ b)
  sorted.getD (roundHalfEven (q * ((xs.length : ℚ) - 1))).toNat 0

/-- `scipy.stats.linregress` on exact rationals: the least-squares slope and
intercept of `ys` against `xs`, given here as a list of `(x, y)` points.
Returns `none` where scipy raises (all `x` values identical, which subsumes
lists of length `< 2`); with exact arithmetic the slope and intercept are
never NaN otherwise. -/
def linregress (pts : List (ℚ × ℚ)) : Option (ℚ × ℚ) :=
  let n : ℚ := pts.length
  let sx := (pts.map fun p => p.1).sum
  let sy := (pts.map fun p => p.2).sum
  let sxx := (pts.map fun p => p.1 * p.1).sum
  let sxy := (pts.map fun p => p.1 * p.2).sum
  let den := n * sxx - sx * sx
  if den = 0 then none
  else
    let slope := (n * sxy - sx * sy) / den
    some (slope, (sy - slope * sx) / n)

/-- `_compute_chunksize_target(target, pairs)` (lines 1220–1259).  `pairs`
is a list of `(resource, events)` values.  Early `None` when `pairs` is
empty or its first resource value is negative; `avgs` are the
events-per-resource ratios `e / max(1, resource)`; samples whose ratio falls
below the 25th percentile of `avgs` are dropped; a degenerate or rejected
fit (`slope < 0` or `intercept > 0`, or scipy raising) falls back to the
median ratio with zero intercept; the projection is
`slope * target + intercept`. -/
def _compute_chunksize_target (target : ℚ) (pairs : List (ℚ × ℚ)) : Option ℚ :=
  match pairs with
  | [] => none
  | p₀ :: _ =>
    if p₀.1 < 0 then none
    else
      let avgs := pairs.map fun p => p.2 / max 1 p.1
      let q25 := quantileNearest avgs (1 / 4)
      let q50 := quantileNearest avgs (1 / 2)
      let pairs_filtered :=
        (pairs.zip avgs).filterMap fun pa => if q25 ≤ pa.2 then some pa.1 else none
      let fit : ℚ × ℚ :=
        match linregress pairs_filtered with
        | some (slope, intercept) =>
          if slope < 0 ∨ 0 < intercept then (q50, 0) else (slope, intercept)
        | none => (q50, 0)
      some (fit.1 * target + fit.2)

/-- `_floor_to_pow2` (lines 1172–1175): `1` for `value < 1`, otherwise
`pow(2, math.floor(math.log2(value)))`; for `value ≥ 1` the exponent
`math.floor(math.log2 value)` is `Nat.log 2 ⌊value⌋`. -/
def _floor_to_pow2 (value : ℚ) : ℕ :=
  if value < 1 then 1
  else 2 ^ Nat.log 2 (Int.toNat ⌊value⌋)

/-- Lines 1193–1205 of `_compute_chunksize`: the per-dimension candidates
`(chunksize_time, chunksize_memory)`.  `resource_targets.get("wall_time", None)`
is a plain lookup; `resource_targets["memory"]` raises `KeyError` when the
key is absent.  `if target_time:`/`if target_memory:` skip a dimension whose
target value is zero (falsy). -/
def _chunksizeCandidates (resource_targets : Option TargetsDict)
    (task_reports : List TaskReport) : Except PyError (Option ℚ × Option ℚ) :=
  match resource_targets with
  | none => .ok (none, none)
  | some targets =>
    if 1 < task_reports.length then
      let chunksize_time : Option ℚ :=
        match targets.lookup "wall_time" with
        | some target_time =>
          if target_time = 0 then none
          else
            _compute_chunksize_target target_time
              (task_reports.map fun r => (r.wall_time, (r.events : ℚ)))
        | none => none
      match targets.lookup "memory" with
      | none => .error .memoryKeyError
      | some target_memory =>
        let chunksize_memory : Option ℚ :=
          if target_memory = 0 then none
          else
            _compute_chunksize_target target_memory
              (task_reports.map fun r => (r.memory, (r.events : ℚ)))
        .ok (chunksize_time, chunksize_memory)
    else
      .ok (none, none)

/-- `_compute_chunksize(base_chunksize, resource_targets, task_reports)`
(lines 1189–1217).  `candidate_sizes` keeps the truthy (nonzero, non-`None`)
candidates; their minimum (or `base_chunksize` when there is none) is then
floored to a power of two.  The `except ValueError` branch around
`int(_floor_to_pow2(chunksize))` is unreachable in exact arithmetic
(`math.floor(math.log2 v)` only raises on NaN). -/
def _compute_chunksize (base_chunksize : ℕ) (resource_targets : Option TargetsDict)
    (task_reports : List TaskReport) : Except PyError ℕ :=
  (_chunksizeCandidates resource_targets task_reports).map fun cands =>
    let candidate_sizes := ([cands.1, cands.2].filterMap id).filter fun c => c ≠ 0
    let chunksize : ℚ := (candidate_sizes.min?).getD (base_chunksize : ℚ)
    _floor_to_pow2 chunksize

/-- `_sample_chunksize` (lines 1178–1186).
`random.choices([chunksize, max(chunksize / 2, 1)], weights=[90, 10])` draws
the first element with probability 90/100 and the second with probability
10/100; the draw is injected for determinism as a number `draw`, outcomes
with `draw % 100 < 90` picking the first element.  `int()` truncates the
nonnegative float `max(chunksize / 2, 1)`. -/
def _sample_chunksize (draw : ℕ) (chunksize : ℕ) : ℕ :=
  if draw % 100 < 90 then chunksize
  else Int.toNat ⌊max ((chunksize : ℚ) / 2) 1⌋

/-- The key loop of `_check_dynamic_chunksize_targets` (lines 1113–1117):
the first key outside `{"wall_time", "memory"}` raises `KeyError`. -/
def checkTargetKeys : List String → Except PyError Unit
  | [] => .ok ()
  | k :: ks =>
    if k = "wall_time" ∨ k = "memory" then checkTargetKeys ks
    else .error .unknownTargetKeyError

/-- `_check_dynamic_chunksize_targets(targets)` (lines 1113–1117).  A falsy
`targets` (`None` or an empty dict) skips the loop; iterating over a dict
yields its keys. -/
def _check_dynamic_chunksize_targets (targets : Option TargetsDict) : Except PyError Unit :=
  match targets with
  | none => .ok ()
  | some d => checkTargetKeys (d.map fun kv => kv.1)

/-- The raise-relevant validation sequence `work_queue_main` runs before
handing off to `_work_queue_processing` and its main loop (lines 637–686),
in source order: the dynamic-chunksize target check (line 637), the
environment-file wrapper check (lines 639–642), and the compression default
(lines 644–645, whose assignment `self.compression = 1` reads the unbound
name `self` — a `NameError` whenever `executor.compression is None`).
Queue construction, resource declaration and temporary-file staging in
between are backend and filesystem side effects that raise no
configuration errors and are not modelled. -/
def workQueueMainPreChecks (cfg : ExecutorConfig) : Except PyError Unit := do
  _check_dynamic_chunksize_targets cfg.dynamic_chunksize
  match cfg.environment_file with
  | some ef => if ef.wrapper = false then throw .envWrapperValueError else pure ()
  | none => pure ()
  match cfg.compression with
  | none => throw .compressionNameError
  | some _ => pure ()

/-- Line 59 of `accumulate_result_files`:
`result_f = _decompress(result_f)`.  The right-hand side reads the local
`result_f` before any assignment to it (the bytes read from the opened
file `rf` are never used), so evaluating this statement raises `NameError`.
`R` is the (opaque) type of deserialized partial results. -/
def readResultFile {R : Type} (f : String) : Except PyError R :=
  .error .resultReadNameError

/-- The `while files_to_accumulate:` loop of `accumulate_result_files`
(lines 51–70), processed here over the reversed list because
`files_to_accumulate.pop()` pops from the end.  `accumulateFn` stands for
`coffea.processor.accumulate(items, accum)`; `chunks_accum_in_mem` is an
`ℤ` because Python lets it go negative in the `len(in_memory) >
chunks_accum_in_mem - 1` comparison.  A falsy accumulator
(`if not accumulator:`) is modelled by `none`. -/
def accumulateLoop {R : Type} (accumulateFn : List R → Option R → R)
    (chunks_accum_in_mem : ℤ) (filesRev : List String) (in_memory : List R)
    (accumulator : Option R) : Except PyError (Option R) :=
  match filesRev with
  | [] => .ok accumulator
  | f :: rest =>
    let caim := min chunks_accum_in_mem (rest.length : ℤ)
    match readResultFile (f := f) (R := R) with
    | .error e => .error e
    | .ok result_f =>
      match accumulator with
      | none => accumulateLoop accumulateFn caim rest in_memory (some result_f)
      | some acc =>
        let in_memory' := in_memory ++ [result_f]
        if ((in_memory'.length : ℤ)) > caim - 1 then
          accumulateLoop accumulateFn caim rest []
            (some (accumulateFn in_memory' (some acc)))
        else
          accumulateLoop accumulateFn caim rest in_memory' (some acc)

/-- `accumulate_result_files(chunks_accum_in_mem, files_to_accumulate,
accumulator=None)` (lines 42–71). -/
def accumulate_result_files {R : Type} (accumulateFn : List R → Option R → R)
    (chunks_accum_in_mem : ℤ) (files_to_accumulate : List String)
    (accumulator : Option R := none) : Except PyError (Option R) :=
  accumulateLoop accumulateFn chunks_accum_in_mem files_to_accumulate.reverse [] accumulator

/-- One resource dimension of the (amended) §4.1 estimate, stated the way
the specification phrases it: for a configured dimension `key` whose target
value is nonzero, the projected chunk size obtained from
`_compute_chunksize_target` over the `(resource, events)` sample pairs. -/
def specDimensionEstimate (targets : TargetsDict) (key : String)
    (proj : TaskReport → ℚ) (task_reports : List TaskReport) : Option ℚ :=
  match targets.lookup key with
  | none => none
  | some t => if t = 0 then none
      else _compute_chunksize_target t (task_reports.map fun r => (proj r, (r.events : ℚ)))

/-- The amended §4.1 estimate as the specification phrases it: the minimum
across the per-dimension estimates (ignoring dimensions that yield none, a
zero estimate counting as none), `base` when no dimension yields one, the
result floored to a power of two. -/
def specEstimate (base : ℕ) (targets : TargetsDict)
    (task_reports : List TaskReport) : ℕ :=
  let dims := [specDimensionEstimate targets "wall_time" (fun r => r.wall_time) task_reports,
               specDimensionEstimate targets "memory" (fun r => r.memory) task_reports]
  let estimates := (dims.filterMap id).filter fun c => c ≠ 0
  _floor_to_pow2 ((estimates.min?).getD (base : ℚ))

/-! ### Concrete instances used in witnesses and counterexamples -/

/-- A processing task of size 4 that failed with resource exhaustion after
one generic retry (one retry left out of a configured budget of 2). -/
def c2parent : ProcTask :=
  ⟨⟨"data", "file.root", "Events", 0, 4, "uuid", none⟩, 1, some .resourceExhaustion⟩

/-- A processing task of size 200 that failed with resource exhaustion
(section 8 scenario: adaptive size 50 splits it into 4 children of 50). -/
def c2task : ProcTask :=
  ⟨⟨"data", "file.root", "Events", 0, 200, "uuid", none⟩, 3, some .resourceExhaustion⟩

/-- A processing task with one retry left whose failure is not resource
exhaustion. -/
def c4task : ProcTask :=
  ⟨⟨"data", "file.root", "Events", 0, 100, "uuid", none⟩, 1, some .otherFailure⟩

/-- A failed processing task of size 1 with no retries left. -/
def c9task : ProcTask :=
  ⟨⟨"data", "file.root", "Events", 5, 6, "uuid", none⟩, 0, some .otherFailure⟩

/-- A configuration with resource-exhaustion splitting enabled. -/
def cfgSplitOn : ExecutorConfig :=
  ⟨1024, none, 2, true, 4, 4, some 1, none⟩

/-- The same configuration with resource-exhaustion splitting disabled. -/
def cfgSplitOff : ExecutorConfig :=
  ⟨1024, none, 2, false, 4, 4, some 1, none⟩

/-- A configuration whose dynamic-chunksize dict holds the unknown target
key `"disk"`. -/
def cfgBadTarget : ExecutorConfig :=
  ⟨1024, some [("disk", 100)], 2, true, 4, 4, some 1, none⟩

/-- A configuration with valid targets but `chunks_per_accum = 1`. -/
def cfgLazyAccum : ExecutorConfig :=
  ⟨1024, some [("wall_time", 3600)], 2, true, 1, 2, some 1, none⟩

/-! ### Helper lemmas about ceiling division -/

theorem ceilDiv_le_iff {a b c : ℕ} (hb : 0 < b) : ceilDiv a b ≤ c ↔ a ≤ c * b := by
  unfold ceilDiv
  rw [Nat.div_le_iff_le_mul_add_pred hb, Nat.mul_comm c b]
  generalize b * c = m
  omega

theorem le_mul_ceilDiv {a b : ℕ} (hb : 0 < b) : a ≤ ceilDiv a b * b :=
  (ceilDiv_le_iff hb).mp le_rfl

theorem ceilDiv_pos {a b : ℕ} (hb : 0 < b) (ha : 0 < a) : 0 < ceilDiv a b := by
  rcases Nat.eq_zero_or_pos (ceilDiv a b) with h | h
  · have h2 := (ceilDiv_le_iff hb).mp (le_of_eq h)
    simp at h2
    omega
  · exact h

theorem ceilDiv_eq_one {a b : ℕ} (h1 : 0 < a) (h2 : a ≤ b) : ceilDiv a b = 1 := by
  unfold ceilDiv
  exact Nat.div_eq_of_lt_le (by omega) (by omega)

theorem ceilDiv_sub_add {a x : ℕ} (ha : 0 < a) (hx : a ≤ x) :
    ceilDiv x a = ceilDiv (x - a) a + 1 := by
  unfold ceilDiv
  have hEq : x + a - 1 = (x - a + a - 1) + a := by omega
  rw [hEq, Nat.add_div_right _ ha]

/-- Ceiling division is idempotent in this sense: cutting `S` into
`n = ⌈S / t⌉` pieces of size `⌈S / n⌉` yields exactly `n` pieces again. -/
theorem ceilDiv_ceilDiv {S t : ℕ} (ht : 0 < t) (hS : 0 < S) :
    ceilDiv S (ceilDiv S (ceilDiv S t)) = ceilDiv S t := by
  set n := ceilDiv S t with hn
  have hnpos : 0 < n := ceilDiv_pos ht hS
  set a := ceilDiv S n with ha
  have hapos : 0 < a := ceilDiv_pos hnpos hS
  apply le_antisymm
  · exact (ceilDiv_le_iff hapos).mpr (Nat.mul_comm a n ▸ le_mul_ceilDiv hnpos)
  · by_contra hlt
    push_neg at hlt
    have h1 : S ≤ (n - 1) * a := (ceilDiv_le_iff hapos).mp (by omega)
    have hat : a ≤ t := (ceilDiv_le_iff hnpos).mpr (Nat.mul_comm n t ▸ le_mul_ceilDiv ht)
    have h2 : (n - 1) * t < S := by
      by_contra h3
      push_neg at h3
      have h4 := (ceilDiv_le_iff ht).mpr h3
      omega
    have h5 : (n - 1) * a ≤ (n - 1) * t := Nat.mul_le_mul_left _ hat
    omega

/-! ### Helper lemmas about `splitRanges` -/

theorem splitRanges_pos {a start stop : ℕ} (h1 : start < stop) (h2 : 0 < a) :
    splitRanges a start stop =
      (start, min stop (start + a)) :: splitRanges a (min stop (start + a)) stop := by
  rw [splitRanges.eq_def]
  exact dif_pos ⟨h1, h2⟩

theorem splitRanges_emp {a start stop : ℕ} (h : ¬(start < stop ∧ 0 < a)) :
    splitRanges a start stop = [] := by
  rw [splitRanges.eq_def]
  exact dif_neg h

theorem splitRanges_sum {a : ℕ} (ha : 0 < a) : ∀ start stop,
    ((splitRanges a start stop).map fun p => p.2 - p.1).sum = stop - start := by
  refine splitRanges.induct a
    (motive := fun start stop =>
      ((splitRanges a start stop).map fun p => p.2 - p.1).sum = stop - start) ?_ ?_
  · intro s t h ih
    rw [splitRanges_pos h.1 h.2]
    simp only [List.map_cons, List.sum_cons]
    rw [ih]
    omega
  · intro s t h
    rw [splitRanges_emp h]
    simp
    omega

theorem splitRanges_length {a : ℕ} (ha : 0 < a) : ∀ start stop,
    (splitRanges a start stop).length = ceilDiv (stop - start) a := by
  refine splitRanges.induct a
    (motive := fun s t => (splitRanges a s t).length = ceilDiv (t - s) a) ?_ ?_
  · intro s t h ih
    rw [splitRanges_pos h.1 h.2, List.length_cons, ih]
    rcases le_or_lt t (s + a) with hc | hc
    · have hmin : min t (s + a) = t := min_eq_left hc
      rw [hmin]
      have hz : ceilDiv (t - t) a = 0 := by
        unfold ceilDiv
        exact Nat.div_eq_of_lt (by omega)
      rw [hz, ceilDiv_eq_one (by omega) (by omega)]
    · have hmin : min t (s + a) = s + a := min_eq_right hc.le
      rw [hmin]
      have h2 : a ≤ t - s := by omega
      have h3 : t - (s + a) = t - s - a := by omega
      rw [h3, ceilDiv_sub_add ha h2]
  · intro s t h
    rw [splitRanges_emp h]
    have hts : t - s = 0 := by omega
    rw [hts]
    unfold ceilDiv
    rw [List.length_nil]
    exact (Nat.div_eq_of_lt (by omega)).symm

theorem splitRanges_mem {a : ℕ} : ∀ start stop, ∀ p ∈ splitRanges a start stop,
    start ≤ p.1 ∧ p.1 < p.2 ∧ p.2 ≤ stop ∧ p.2 - p.1 ≤ a := by
  refine splitRanges.induct a
    (motive := fun s t => ∀ p ∈ splitRanges a s t,
      s ≤ p.1 ∧ p.1 < p.2 ∧ p.2 ≤ t ∧ p.2 - p.1 ≤ a) ?_ ?_
  · intro s t h ih p hp
    rw [splitRanges_pos h.1 h.2] at hp
    rcases List.mem_cons.mp hp with hhd | htl
    · subst hhd
      simp only
      omega
    · have h4 := ih p htl
      omega
  · intro s t h p hp
    rw [splitRanges_emp h] at hp
    exact absurd hp (List.not_mem_nil p)

theorem splitRanges_dropLast {a : ℕ} : ∀ start stop,
    ∀ p ∈ (splitRanges a start stop).dropLast, p.2 - p.1 = a := by
  refine splitRanges.induct a
    (motive := fun s t => ∀ p ∈ (splitRanges a s t).dropLast, p.2 - p.1 = a) ?_ ?_
  · intro s t h ih p hp
    rw [splitRanges_pos h.1 h.2] at hp
    rcases le_or_lt t (s + a) with hc | hc
    · have hmin : min t (s + a) = t := min_eq_left hc
      rw [hmin, splitRanges_emp (by omega)] at hp
      simp at hp
    · have hmin : min t (s + a) = s + a := min_eq_right hc.le
      rw [hmin] at hp ih
      rw [splitRanges_pos hc h.2] at hp ih
      rw [List.dropLast_cons_of_ne_nil (List.cons_ne_nil _ _)] at hp
      rcases List.mem_cons.mp hp with hhd | htl
      · subst hhd
        simp only
        omega
      · exact ih p htl
  · intro s t h p hp
    rw [splitRanges_emp h] at hp
    simp at hp

theorem splitRanges_chain {a : ℕ} : ∀ start stop,
    (splitRanges a start stop).Chain' fun p q => p.2 = q.1 := by
  refine splitRanges.induct a
    (motive := fun s t => (splitRanges a s t).Chain' fun p q => p.2 = q.1) ?_ ?_
  · intro s t h ih
    rw [splitRanges_pos h.1 h.2]
    rw [List.chain'_cons']
    refine ⟨?_, ih⟩
    intro q hq
    rcases le_or_lt t (s + a) with hc | hc
    · have hmin : min t (s + a) = t := min_eq_left hc
      rw [hmin, splitRanges_emp (by omega)] at hq
      simp at hq
    · have hmin : min t (s + a) = s + a := min_eq_right hc.le
      rw [hmin, splitRanges_pos hc h.2] at hq
      simp at hq
      subst hq
      simp [hmin]
  · intro s t h
    rw [splitRanges_emp h]
    exact List.chain'_nil

theorem splitRanges_head {a start stop : ℕ} (h1 : start < stop) (h2 : 0 < a) :
    ((splitRanges a start stop).head?).map (fun p => p.1) = some start := by
  rw [splitRanges_pos h1 h2]
  rfl

theorem splitRanges_getLast {a : ℕ} (ha : 0 < a) : ∀ start stop, start < stop →
    ((splitRanges a start stop).getLast?).map (fun p => p.2) = some stop := by
  refine splitRanges.induct a
    (motive := fun s t => s < t →
      ((splitRanges a s t).getLast?).map (fun p => p.2) = some t) ?_ ?_
  · intro s t h ih _
    rw [splitRanges_pos h.1 h.2]
    rcases le_or_lt t (s + a) with hc | hc
    · have hmin : min t (s + a) = t := min_eq_left hc
      rw [hmin, splitRanges_emp (by omega)]
      rfl
    · have hmin : min t (s + a) = s + a := min_eq_right hc.le
      rw [hmin] at ih ⊢
      have htl := ih hc
      obtain ⟨b, l₂, hbl⟩ := List.exists_cons_of_ne_nil
        (l := splitRanges a (s + a) t)
        (by rw [splitRanges_pos hc h.2]; exact List.cons_ne_nil _ _)
      rw [hbl, List.getLast?_cons_cons, ← hbl, htl]
  · intro s t h hst
    omega

/-! ### C2: resource-exhaustion splitting -/

/-- C2 (amended).  For a processing task of size `S ≥ 2` splitting under a
current adaptive chunk size `≥ 1`: with `target_chunksize = ceil(S / 2)`
when `S ≤ current_chunksize` (split in half also at equality) and
`= current_chunksize` otherwise, split succeeds and produces
`n = ceil(S / target_chunksize) ≥ 2` children; the children's ranges are
contiguous disjoint sub-ranges covering the parent's
`[entrystart, entrystop)`, of length `ceil(S / n)` each except a possibly
shorter (but nonempty) last one, their sizes summing to `S`; and every
child carries the configured full retry budget `executor.retries` — not
the parent's (possibly already decremented) remaining budget, and not
`R - 1`.  `resubmit` reaches this split exactly when splitting is enabled,
the parent has a retry left and its failure is resource exhaustion. -/
theorem C2_split_amended (executorRetries currentChunksize target : ℕ) (t : ProcTask)
    (hchunk : 1 ≤ currentChunksize) (hsize : 2 ≤ t.item.size)
    (htarget : target = if t.item.size ≤ currentChunksize
        then ceilDiv t.item.size 2 else currentChunksize) :
    ∃ cs, t.split executorRetries currentChunksize = .ok cs
      ∧ cs.length = ceilDiv t.item.size target
      ∧ 2 ≤ cs.length
      ∧ (cs.map fun c => c.item.size).sum = t.item.size
      ∧ (∀ c ∈ cs, 1 ≤ c.item.size ∧ c.item.size ≤ ceilDiv t.item.size cs.length
           ∧ c.retries_to_go = executorRetries)
      ∧ (∀ c ∈ cs.dropLast, c.item.size = ceilDiv t.item.size cs.length)
      ∧ cs.Chain' (fun c d => c.item.entrystop = d.item.entrystart)
      ∧ (cs.head?.map fun c => c.item.entrystart) = some t.item.entrystart
      ∧ (cs.getLast?.map fun c => c.item.entrystop) = some t.item.entrystop
      ∧ (∀ cfg : ExecutorConfig, cfg.split_on_exhaustion = true → 1 ≤ t.retries_to_go →
           t.result = some .resourceExhaustion → cfg.retries = executorRetries →
           t.resubmit cfg currentChunksize = .ok cs) := by
  subst htarget
  have htpos : 0 < (if t.item.size ≤ currentChunksize then ceilDiv t.item.size 2
      else currentChunksize) := by
    rcases le_or_lt t.item.size currentChunksize with hc | hc
    · rw [if_pos hc]
      exact ceilDiv_pos (by norm_num) (by omega)
    · rw [if_neg (by omega)]
      omega
  have hsplit : t.split executorRetries currentChunksize =
      .ok ((splitRanges
          (ceilDiv t.item.size (max (ceilDiv t.item.size
            (if t.item.size ≤ currentChunksize then ceilDiv t.item.size 2
             else currentChunksize)) 1))
          t.item.entrystart t.item.entrystop).map fun r =>
        { item := { t.item with entrystart := r.1, entrystop := r.2 }
          retries_to_go := executorRetries
          result := none }) := by
    simp only [ProcTask.split]
    rw [if_neg (by omega), if_neg (by omega)]
  have hmax : max (ceilDiv t.item.size
      (if t.item.size ≤ currentChunksize then ceilDiv t.item.size 2
       else currentChunksize)) 1 =
      ceilDiv t.item.size
        (if t.item.size ≤ currentChunksize then ceilDiv t.item.size 2
         else currentChunksize) :=
    max_eq_left (ceilDiv_pos htpos (by omega))
  rw [hmax] at hsplit
  have hnpos : 0 < ceilDiv t.item.size
      (if t.item.size ≤ currentChunksize then ceilDiv t.item.size 2
       else currentChunksize) := ceilDiv_pos htpos (by omega)
  have hactpos : 0 < ceilDiv t.item.size (ceilDiv t.item.size
      (if t.item.size ≤ currentChunksize then ceilDiv t.item.size 2
       else currentChunksize)) := ceilDiv_pos hnpos (by omega)
  have hrange : t.item.entrystop - t.item.entrystart = t.item.size := rfl
  have hstartstop : t.item.entrystart < t.item.entrystop := by
    have := hsize
    unfold WorkItem.size at this
    omega
  refine ⟨_, hsplit, ?_, ?_, ?_, ?_, ?_, ?_, ?_, ?_, ?_⟩
  · -- length = ceil(S / target)
    rw [List.length_map, splitRanges_length hactpos, hrange]
    exact ceilDiv_ceilDiv htpos (by omega)
  · -- at least two children
    rw [List.length_map, splitRanges_length hactpos, hrange,
      ceilDiv_ceilDiv htpos (by omega)]
    rcases le_or_lt t.item.size currentChunksize with hc | hc
    · rw [if_pos hc]
      by_contra hle
      push_neg at hle
      have h1 := (ceilDiv_le_iff (ceilDiv_pos (by norm_num) (by omega))).mp
        (show ceilDiv t.item.size (ceilDiv t.item.size 2) ≤ 1 by omega)
      unfold ceilDiv at h1
      omega
    · rw [if_neg (by omega)]
      by_contra hle
      push_neg at hle
      have h1 := (ceilDiv_le_iff (show 0 < currentChunksize by omega)).mp
        (show ceilDiv t.item.size currentChunksize ≤ 1 by omega)
      omega
  · -- sizes sum to S
    rw [List.map_map]
    have hcomp : ((fun c : ProcTask => c.item.size) ∘ fun r : ℕ × ℕ =>
        ({ item := { t.item with entrystart := r.1, entrystop := r.2 }
           retries_to_go := executorRetries
           result := none } : ProcTask)) = fun r : ℕ × ℕ => r.2 - r.1 := rfl
    rw [hcomp, splitRanges_sum hactpos, hrange]
  · -- per-child size bounds and retry budget
    intro c hcmem
    rw [List.mem_map] at hcmem
    obtain ⟨r, hr, hcr⟩ := hcmem
    have hfacts := splitRanges_mem _ _ r hr
    subst hcr
    refine ⟨?_, ?_, rfl⟩
    · show 1 ≤ r.2 - r.1
      omega
    · rw [List.length_map, splitRanges_length hactpos, hrange,
        ceilDiv_ceilDiv htpos (by omega)]
      exact hfacts.2.2.2
  · -- all but the last child have size exactly ceil(S / n)
    intro c hcmem
    rw [← List.map_dropLast] at hcmem
    rw [List.mem_map] at hcmem
    obtain ⟨r, hr, hcr⟩ := hcmem
    have hfact := splitRanges_dropLast _ _ r hr
    subst hcr
    rw [List.length_map, splitRanges_length hactpos, hrange,
      ceilDiv_ceilDiv htpos (by omega)]
    exact hfact
  · -- contiguity of the children's ranges
    exact (List.chain'_map _).mpr (splitRanges_chain _ _)
  · -- first child starts at the parent's entrystart
    rw [List.head?_map, Option.map_map]
    exact splitRanges_head hstartstop hactpos
  · -- last child stops at the parent's entrystop
    rw [List.getLast?_map, Option.map_map]
    exact splitRanges_getLast hactpos _ _ hstartstop
  · -- resubmit dispatches a resource-exhausted failure to this split
    intro cfg hsoe hretry hres hr
    unfold ProcTask.resubmit
    rw [if_neg (by simp [hsoe]; omega), if_pos hres, hr]
    exact hsplit

/-- C2 counterexample.  For the parent `c2parent` of size `S = 4`, with
current adaptive size also 4 and configured budget `executor.retries = 2`:
the claim's clamped target is `min 4 S = 4` and predicts
`ceil(4 / 4) = 1` child carrying the parent's budget `R = 1`; the code
instead splits in half (the `total <= target_chunksize` branch fires at
equality), producing 2 children, each carrying the configured budget 2,
not the parent's remaining budget 1. -/
theorem C2_counterexample :
    ProcTask.split 2 4 c2parent =
      .ok [⟨⟨"data", "file.root", "Events", 0, 2, "uuid", none⟩, 2, none⟩,
           ⟨⟨"data", "file.root", "Events", 2, 4, "uuid", none⟩, 2, none⟩]
    ∧ ceilDiv c2parent.item.size (min 4 c2parent.item.size) = 1
    ∧ c2parent.retries_to_go = 1 := by
  refine ⟨?_, by decide, by decide⟩
  simp only [ProcTask.split, c2parent]
  norm_num [WorkItem.size, ceilDiv]
  simp +decide [splitRanges.eq_def]

/-- Witness for C2 (amended), at the specification's section 8 scenario:
a resource-exhausted unit of 200 events with current adaptive size 50 is
split into 4 contiguous children of 50 events each, every child carrying
the configured retry budget 3. -/
theorem C2_split_amended_witness :
    ∃ cs, ProcTask.split 3 50 c2task = .ok cs
      ∧ cs.length = ceilDiv c2task.item.size 50
      ∧ 2 ≤ cs.length
      ∧ (cs.map fun c => c.item.size).sum = c2task.item.size
      ∧ (∀ c ∈ cs, 1 ≤ c.item.size ∧ c.item.size ≤ ceilDiv c2task.item.size cs.length
           ∧ c.retries_to_go = 3)
      ∧ (∀ c ∈ cs.dropLast, c.item.size = ceilDiv c2task.item.size cs.length)
      ∧ cs.Chain' (fun c d => c.item.entrystop = d.item.entrystart)
      ∧ (cs.head?.map fun c => c.item.entrystart) = some c2task.item.entrystart
      ∧ (cs.getLast?.map fun c => c.item.entrystop) = some c2task.item.entrystop
      ∧ (∀ cfg : ExecutorConfig, cfg.split_on_exhaustion = true → 1 ≤ c2task.retries_to_go →
           c2task.result = some .resourceExhaustion → cfg.retries = 3 →
           ProcTask.resubmit cfg 50 c2task = .ok cs) :=
  C2_split_amended 3 50 50 c2task (by norm_num) (by decide) (by decide)

/-! ### C4: resubmission of non-exhaustion failures -/

/-- C4 counterexample.  With resource-exhaustion splitting disabled
(`split_on_exhaustion = False`), a task whose failure is not resource
exhaustion and which still has a retry left is not resubmitted as the
claim states: `resubmit` raises the permanent failure (its guard is
`self.retries_to_go < 1 or not queue.executor.split_on_exhaustion`). -/
theorem C4_counterexample :
    ProcTask.resubmit cfgSplitOff 64 c4task = .error .permanentFailure
    ∧ 1 ≤ c4task.retries_to_go
    ∧ c4task.result = some .otherFailure := by
  refine ⟨?_, by decide, by decide⟩
  simp +decide [ProcTask.resubmit, cfgSplitOff, c4task]

/-- C4 (amended).  On a failure that is not resource exhaustion, if a
retry remains *and* resource-exhaustion splitting is enabled, `resubmit`
submits a clone over the same range with `retries_to_go` decremented by
one; with no retries left, or with `split_on_exhaustion` disabled (the
guard couples the two), it raises the permanent `RuntimeError`, which
propagates to the control loop. -/
theorem C4_resubmit_amended (cfg : ExecutorConfig) (currentChunksize : ℕ) (t : ProcTask)
    (hres : t.result = some .otherFailure) :
    (1 ≤ t.retries_to_go → cfg.split_on_exhaustion = true →
      t.resubmit cfg currentChunksize =
        .ok [{ item := t.item, retries_to_go := t.retries_to_go - 1, result := none }])
    ∧ (t.retries_to_go = 0 ∨ cfg.split_on_exhaustion = false →
      t.resubmit cfg currentChunksize = .error .permanentFailure) := by
  constructor
  · intro h1 h2
    unfold ProcTask.resubmit
    rw [if_neg (by simp [h2]; omega), if_neg (by simp [hres])]
  · intro h
    unfold ProcTask.resubmit
    rcases h with h | h
    · rw [if_pos (Or.inl (by omega))]
    · rw [if_pos (Or.inr h)]

/-- Witness for C4 (amended) at a concrete non-exhaustion failure with one
retry left, under a configuration with splitting enabled. -/
theorem C4_resubmit_amended_witness :
    (1 ≤ c4task.retries_to_go → cfgSplitOn.split_on_exhaustion = true →
      ProcTask.resubmit cfgSplitOn 64 c4task =
        .ok [{ item := c4task.item, retries_to_go := c4task.retries_to_go - 1, result := none }])
    ∧ (c4task.retries_to_go = 0 ∨ cfgSplitOn.split_on_exhaustion = false →
      ProcTask.resubmit cfgSplitOn 64 c4task = .error .permanentFailure) :=
  C4_resubmit_amended cfgSplitOn 64 c4task (by decide)

/-! ### C9: zero retries left is always permanent -/

/-- C9.  A failed unit of size `< 2` with zero retries remaining always
raises the permanent failure in `resubmit` — the `retries_to_go < 1`
guard fires before the failure kind is even inspected — and never
attempts a split. -/
theorem C9_zero_retries_permanent (cfg : ExecutorConfig) (currentChunksize : ℕ)
    (t : ProcTask) (hsize : t.item.size < 2) (hret : t.retries_to_go = 0) :
    t.resubmit cfg currentChunksize = .error .permanentFailure := by
  unfold ProcTask.resubmit
  rw [if_pos (Or.inl (by omega))]

/-- Witness for C9 at a concrete unresplittable, out-of-retries task. -/
theorem C9_zero_retries_permanent_witness :
    ProcTask.resubmit cfgSplitOn 10 c9task = .error .permanentFailure :=
  C9_zero_retries_permanent cfgSplitOn 10 c9task (by decide) (by decide)

/-! ### Helper lemmas about `_group_lst` and `_accumLoop` -/

theorem mem_dropLast_cons {α : Type} {x : α} {l : List α} {y : α}
    (hy : y ∈ l.dropLast) : y ∈ (x :: l).dropLast := by
  cases l with
  | nil => simp at hy
  | cons a as =>
    rw [List.dropLast_cons_of_ne_nil (List.cons_ne_nil a as)]
    exact List.mem_cons_of_mem _ hy

theorem group_lst_pos {lst : List PendingTask} {n : ℕ} (hn : 0 < n) (hne : lst ≠ []) :
    _group_lst lst n = lst.take n :: _group_lst (lst.drop n) n := by
  rw [_group_lst.eq_def]
  exact dif_pos ⟨hn, hne⟩

theorem group_lst_emp {lst : List PendingTask} {n : ℕ} (h : ¬(0 < n ∧ lst ≠ [])) :
    _group_lst lst n = [] := by
  rw [_group_lst.eq_def]
  exact dif_neg h

theorem group_lst_flatten : ∀ (lst : List PendingTask) (n : ℕ), 0 < n →
    (_group_lst lst n).flatten = lst := by
  refine _group_lst.induct
    (motive := fun lst n => 0 < n → (_group_lst lst n).flatten = lst) ?_ ?_
  · intro lst n h ih hn2
    rw [group_lst_pos h.1 h.2, List.flatten_cons, ih hn2, List.take_append_drop]
  · intro lst n h hn2
    rw [group_lst_emp h]
    have : lst = [] := by
      by_contra hne
      exact h ⟨hn2, hne⟩
    rw [this]
    rfl

theorem group_lst_mem : ∀ (lst : List PendingTask) (n : ℕ),
    ∀ g ∈ _group_lst lst n, g ≠ [] ∧ g.length ≤ n := by
  refine _group_lst.induct
    (motive := fun lst n => ∀ g ∈ _group_lst lst n, g ≠ [] ∧ g.length ≤ n) ?_ ?_
  · intro lst n h ih g hg
    rw [group_lst_pos h.1 h.2] at hg
    rcases List.mem_cons.mp hg with hhd | htl
    · subst hhd
      constructor
      · have h0 : 0 < lst.length := List.length_pos.mpr h.2
        have : 0 < (lst.take n).length := by
          rw [List.length_take]
          omega
        exact List.ne_nil_of_length_pos this
      · rw [List.length_take]
        omega
    · exact ih g htl
  · intro lst n h g hg
    rw [group_lst_emp h] at hg
    simp at hg

theorem group_lst_dropLast : ∀ (lst : List PendingTask) (n : ℕ),
    ∀ g ∈ (_group_lst lst n).dropLast, g.length = n := by
  refine _group_lst.induct
    (motive := fun lst n => ∀ g ∈ (_group_lst lst n).dropLast, g.length = n) ?_ ?_
  · intro lst n h ih g hg
    rw [group_lst_pos h.1 h.2] at hg
    rcases eq_or_ne (lst.drop n) [] with hd | hd
    · rw [hd, group_lst_emp (by simp)] at hg
      simp at hg
    · have hrest : _group_lst (lst.drop n) n ≠ [] := by
        rw [group_lst_pos h.1 hd]
        exact List.cons_ne_nil _ _
      rw [List.dropLast_cons_of_ne_nil hrest] at hg
      rcases List.mem_cons.mp hg with hhd | htl
      · subst hhd
        have hlen : n < lst.length := by
          by_contra hle
          push_neg at hle
          exact hd (List.drop_eq_nil_of_le hle)
        rw [List.length_take]
        omega
      · exact ih g htl
  · intro lst n h g hg
    rw [group_lst_emp h] at hg
    simp at hg

theorem accumLoop_flatten (cpa : ℕ) (force : Bool) (hcpa : 2 ≤ cpa) :
    ∀ groups : List (List PendingTask),
      (∀ g ∈ groups.dropLast, g.length = cpa) →
      (_accumLoop cpa force groups).1.flatten ++ (_accumLoop cpa force groups).2 =
        groups.flatten := by
  intro groups
  induction groups with
  | nil => intro _; rfl
  | cons g gs ih =>
    intro H3
    have hstop : g.length < cpa → gs = [] := by
      intro hlt
      by_contra hne
      have hmem : g ∈ (g :: gs).dropLast := by
        rw [List.dropLast_cons_of_ne_nil hne]
        exact List.mem_cons_self _ _
      have := H3 g hmem
      omega
    by_cases h1 : g.length < 2
    · have hgs := hstop (by omega)
      subst hgs
      simp [_accumLoop, h1]
    · by_cases h2 : g.length < cpa ∧ force = false
      · have hgs := hstop h2.1
        subst hgs
        simp [_accumLoop, h1, h2]
      · have ihh := ih fun g2 hg2 => H3 g2 (mem_dropLast_cons hg2)
        simp only [_accumLoop, if_neg h1, if_neg h2]
        rw [List.flatten_cons, List.append_assoc, ihh, List.flatten_cons]

theorem accumLoop_emitted (cpa : ℕ) (force : Bool) :
    ∀ groups : List (List PendingTask), ∀ g ∈ (_accumLoop cpa force groups).1,
      2 ≤ g.length ∧ g ∈ groups ∧ (force = false → cpa ≤ g.length) := by
  intro groups
  induction groups with
  | nil => intro g hg; simp [_accumLoop] at hg
  | cons g gs ih =>
    intro g2 hg2
    by_cases h1 : g.length < 2
    · simp only [_accumLoop, if_pos h1] at hg2
      simp at hg2
    · by_cases h2 : g.length < cpa ∧ force = false
      · simp only [_accumLoop, if_neg h1, if_pos h2] at hg2
        simp at hg2
      · simp only [_accumLoop, if_neg h1, if_neg h2] at hg2
        rcases List.mem_cons.mp hg2 with hhd | htl
        · subst hhd
          refine ⟨by omega, List.mem_cons_self _ _, ?_⟩
          intro hf
          by_contra hlt
          exact h2 ⟨by omega, hf⟩
        · obtain ⟨ha, hb, hc⟩ := ih g2 htl
          exact ⟨ha, List.mem_cons_of_mem _ hb, hc⟩

theorem accumLoop_rest (cpa : ℕ) (force : Bool) :
    ∀ groups : List (List PendingTask),
      (_accumLoop cpa force groups).2 = []
      ∨ (_accumLoop cpa force groups).2.length < 2
      ∨ (force = false ∧ (_accumLoop cpa force groups).2.length < cpa) := by
  intro groups
  induction groups with
  | nil => left; rfl
  | cons g gs ih =>
    by_cases h1 : g.length < 2
    · simp only [_accumLoop, if_pos h1]
      right; left
      exact h1
    · by_cases h2 : g.length < cpa ∧ force = false
      · simp only [_accumLoop, if_neg h1, if_pos h2]
        right; right
        exact ⟨h2.2, h2.1⟩
      · simpa only [_accumLoop, if_neg h1, if_neg h2] using ih

/-! ### C3: accumulation scheduling -/

/-- C3.  The accumulation scheduler emits accumulation tasks only when
`len(pending) >= 2 * chunks_per_accum - 1` or when forced; at emission the
pending list is sorted by output artifact size (`fout_size`) ascending and
partitioned into consecutive groups of `chunks_per_accum`; every emitted
group has size at least 2 (and exactly `chunks_per_accum` when not
forced — a partial group when not forced, or a group of size below 2, is
deferred and returned as the new pending list); the emitted groups
together with the returned leftover use each pending task exactly once
(pairwise disjoint, exhaustive cover as a permutation), the emitted
concatenation being exactly the sorted pending list. -/
theorem C3_submit_accum (cpa caim : ℕ) (pending : List PendingTask) (force : Bool)
    (em : List (List PendingTask)) (rest : List PendingTask)
    (hcpa : 2 ≤ cpa) (hcaim : 2 ≤ caim)
    (hrun : _submit_accum_tasks cpa caim pending force = .ok (em, rest)) :
    (pending.length < 2 * cpa - 1 ∧ force = false → em = [] ∧ rest = pending)
    ∧ (em.flatten ++ rest).Perm pending
    ∧ (∀ g ∈ em, 2 ≤ g.length ∧ g.length ≤ cpa)
    ∧ (force = false → ∀ g ∈ em, g.length = cpa)
    ∧ (rest = pending ∨ rest.length < 2 ∨ (force = false ∧ rest.length < cpa))
    ∧ (¬(pending.length < 2 * cpa - 1 ∧ force = false) →
        em.flatten ++ rest =
          pending.mergeSort (fun a b => decide (a.fout_size ≤ b.fout_size))
        ∧ List.Sorted (fun a b : PendingTask => a.fout_size ≤ b.fout_size)
            (em.flatten ++ rest)) := by
  unfold _submit_accum_tasks at hrun
  rw [if_neg (by omega)] at hrun
  by_cases htrig : pending.length < 2 * cpa - 1 ∧ force = false
  · rw [if_pos htrig] at hrun
    injection hrun with h
    injection h with h1 h2
    subst h1
    subst h2
    refine ⟨fun _ => ⟨rfl, rfl⟩, by simp, by simp, by simp, Or.inl rfl, fun hc => absurd htrig hc⟩
  · rw [if_neg htrig] at hrun
    injection hrun with h
    set sorted := pending.mergeSort (fun a b => decide (a.fout_size ≤ b.fout_size)) with hsorteddef
    set groups := _group_lst sorted cpa with hgroupsdef
    have hem : em = (_accumLoop cpa force groups).1 := by rw [h]
    have hrest : rest = (_accumLoop cpa force groups).2 := by rw [h]
    have H3 : ∀ g ∈ groups.dropLast, g.length = cpa := group_lst_dropLast sorted cpa
    have hflat : em.flatten ++ rest = sorted := by
      rw [hem, hrest, accumLoop_flatten cpa force hcpa groups H3, hgroupsdef,
        group_lst_flatten sorted cpa (by omega)]
    have hperm : sorted.Perm pending := List.mergeSort_perm pending _
    have htrans : ∀ a b c : PendingTask,
        (decide (a.fout_size ≤ b.fout_size)) = true →
        (decide (b.fout_size ≤ c.fout_size)) = true →
        (decide (a.fout_size ≤ c.fout_size)) = true := by
      intro a b c h1 h2
      simp only [decide_eq_true_eq] at h1 h2 ⊢
      exact le_trans h1 h2
    have htotal : ∀ a b : PendingTask,
        ((decide (a.fout_size ≤ b.fout_size)) || (decide (b.fout_size ≤ a.fout_size))) = true := by
      intro a b
      simp only [Bool.or_eq_true, decide_eq_true_eq]
      exact le_total _ _
    have hsorted : List.Sorted (fun a b : PendingTask => a.fout_size ≤ b.fout_size) sorted := by
      have hp := @List.sorted_mergeSort PendingTask
        (fun a b => decide (a.fout_size ≤ b.fout_size)) htrans htotal pending
      exact hp.imp fun hab => by simpa using hab
    refine ⟨fun hc => absurd hc htrig, ?_, ?_, ?_, ?_, fun _ => ⟨hflat, ?_⟩⟩
    · rw [hflat]
      exact hperm
    · intro g hg
      obtain ⟨h2g, hmemg, _⟩ := accumLoop_emitted cpa force groups g (hem ▸ hg)
      exact ⟨h2g, (group_lst_mem sorted cpa g (hgroupsdef ▸ hmemg)).2⟩
    · intro hf g hg
      obtain ⟨h2g, hmemg, hcg⟩ := accumLoop_emitted cpa force groups g (hem ▸ hg)
      have := (group_lst_mem sorted cpa g (hgroupsdef ▸ hmemg)).2
      have := hcg hf
      omega
    · rcases accumLoop_rest cpa force groups with hr | hr | hr
      · right; left
        rw [hrest, hr]
        simp
      · right; left
        rw [hrest]
        exact hr
      · right; right
        rw [hrest]
        exact ⟨hr.1, hr.2⟩
    · rw [hflat]
      exact hsorted
-- The sort step of `_submit_accum_tasks` evaluated on the concrete
-- pending list used by the C3 witness.
unseal List.merge List.mergeSort in
theorem mergeSortPendingEx : ([⟨0, 3⟩, ⟨1, 1⟩, ⟨2, 2⟩] : List PendingTask).mergeSort
    (fun a b => decide (a.fout_size ≤ b.fout_size)) = [⟨1, 1⟩, ⟨2, 2⟩, ⟨0, 3⟩] := by rfl

/-- Witness for C3: three pending tasks of output sizes 3, 1, 2 with
`chunks_per_accum = 2`, not forced.  The trigger `3 ≥ 2·2 - 1` fires, the
sorted list `[1, 2, 3]` is grouped as `[[1, 2], [3]]`, the full group is
emitted and the trailing singleton is returned as the new pending list. -/
theorem C3_submit_accum_witness :
    (([⟨0, 3⟩, ⟨1, 1⟩, ⟨2, 2⟩] : List PendingTask).length < 2 * 2 - 1 ∧ false = false →
        ([[⟨1, 1⟩, ⟨2, 2⟩]] : List (List PendingTask)) = []
        ∧ ([⟨0, 3⟩] : List PendingTask) = [⟨0, 3⟩, ⟨1, 1⟩, ⟨2, 2⟩])
    ∧ (([[⟨1, 1⟩, ⟨2, 2⟩]] : List (List PendingTask)).flatten ++ ([⟨0, 3⟩] : List PendingTask)).Perm
        [⟨0, 3⟩, ⟨1, 1⟩, ⟨2, 2⟩]
    ∧ (∀ g ∈ ([[⟨1, 1⟩, ⟨2, 2⟩]] : List (List PendingTask)), 2 ≤ g.length ∧ g.length ≤ 2)
    ∧ (false = false → ∀ g ∈ ([[⟨1, 1⟩, ⟨2, 2⟩]] : List (List PendingTask)), g.length = 2)
    ∧ (([⟨0, 3⟩] : List PendingTask) = [⟨0, 3⟩, ⟨1, 1⟩, ⟨2, 2⟩]
        ∨ ([⟨0, 3⟩] : List PendingTask).length < 2
        ∨ (false = false ∧ ([⟨0, 3⟩] : List PendingTask).length < 2))
    ∧ (¬(([⟨0, 3⟩, ⟨1, 1⟩, ⟨2, 2⟩] : List PendingTask).length < 2 * 2 - 1 ∧ false = false) →
        ([[⟨1, 1⟩, ⟨2, 2⟩]] : List (List PendingTask)).flatten ++ ([⟨0, 3⟩] : List PendingTask) =
          ([⟨0, 3⟩, ⟨1, 1⟩, ⟨2, 2⟩] : List PendingTask).mergeSort
            (fun a b => decide (a.fout_size ≤ b.fout_size))
        ∧ List.Sorted (fun a b : PendingTask => a.fout_size ≤ b.fout_size)
            (([[⟨1, 1⟩, ⟨2, 2⟩]] : List (List PendingTask)).flatten
              ++ ([⟨0, 3⟩] : List PendingTask))) :=
  C3_submit_accum 2 2 [⟨0, 3⟩, ⟨1, 1⟩, ⟨2, 2⟩] false [[⟨1, 1⟩, ⟨2, 2⟩]] [⟨0, 3⟩]
    (by omega) (by omega)
    (by
      unfold _submit_accum_tasks
      rw [if_neg (by omega), if_neg (by norm_num), mergeSortPendingEx]
      simp +decide [_group_lst.eq_def, _accumLoop])

/-! ### C6 and C10: the remote merge helper -/

/-- C6 (code bug).  On any nonempty `files_to_accumulate`, the first loop
iteration of `accumulate_result_files` evaluates
`result_f = _decompress(result_f)` (line 59), whose right-hand side reads
the never-assigned local `result_f`: the call raises `NameError` before
any partial result is deserialized, held in memory, or merged — the
claimed bounded streaming merge never happens. -/
theorem C6_accumulate_raises {R : Type} (accumulateFn : List R → Option R → R)
    (chunks_accum_in_mem : ℤ) (files : List String) (accumulator : Option R)
    (hne : files ≠ []) :
    accumulate_result_files accumulateFn chunks_accum_in_mem files accumulator =
      .error .resultReadNameError := by
  unfold accumulate_result_files
  obtain ⟨f, rest, hrev⟩ := List.exists_cons_of_ne_nil
    (fun hnil => hne (List.reverse_eq_nil_iff.mp hnil))
  rw [hrev]
  rfl

/-- Witness for C6: the failing input
`accumulate_result_files(2, ["out_1.p"])` (results modelled as naturals,
accumulation as their sum). -/
theorem C6_accumulate_raises_witness :
    accumulate_result_files (R := ℕ) (fun l a => l.sum + a.getD 0) 2 ["out_1.p"] none =
      .error .resultReadNameError :=
  C6_accumulate_raises (fun l a => l.sum + a.getD 0) 2 ["out_1.p"] none (by simp)

/-- C10.  With an empty `files_to_accumulate` list the while-loop body
never runs: `accumulate_result_files` returns the accumulator argument
unchanged — `None` when not supplied — performing no merge (the result
does not depend on the merge function) and raising nothing. -/
theorem C10_empty_files {R : Type} (accumulateFn : List R → Option R → R)
    (chunks_accum_in_mem : ℤ) (accumulator : Option R) :
    accumulate_result_files accumulateFn chunks_accum_in_mem [] accumulator = .ok accumulator
    ∧ accumulate_result_files accumulateFn chunks_accum_in_mem [] = .ok none :=
  ⟨rfl, rfl⟩

/-! ### C7: configuration validation -/

theorem checkTargetKeys_error (ks : List String)
    (hex : ∃ k ∈ ks, ¬(k = "wall_time" ∨ k = "memory")) :
    checkTargetKeys ks = .error .unknownTargetKeyError := by
  induction ks with
  | nil => simp at hex
  | cons k ks ih =>
    unfold checkTargetKeys
    by_cases hk : k = "wall_time" ∨ k = "memory"
    · rw [if_pos hk]
      apply ih
      obtain ⟨k2, hk2, hbad⟩ := hex
      rcases List.mem_cons.mp hk2 with rfl | htl
      · exact absurd hk hbad
      · exact ⟨k2, htl, hbad⟩
    · rw [if_neg hk]

theorem checkTargetKeys_ok (ks : List String)
    (hall : ∀ k ∈ ks, k = "wall_time" ∨ k = "memory") :
    checkTargetKeys ks = .ok () := by
  induction ks with
  | nil => rfl
  | cons k ks ih =>
    unfold checkTargetKeys
    rw [if_pos (hall k (List.mem_cons_self _ _))]
    exact ih fun k2 hk2 => hall k2 (List.mem_cons_of_mem _ hk2)

/-- C7 counterexample.  The configuration `cfgLazyAccum` has
`chunks_per_accum = 1` — a configuration error per the claim — yet it
passes every validation `work_queue_main` performs before entering the
main control loop; the `< 2` error is raised only by
`_submit_accum_tasks`, which the loop first calls after a task has
already been submitted and completed. -/
theorem C7_counterexample :
    workQueueMainPreChecks cfgLazyAccum = .ok ()
    ∧ cfgLazyAccum.chunks_per_accum = 1
    ∧ _submit_accum_tasks cfgLazyAccum.chunks_per_accum cfgLazyAccum.chunks_accum_in_mem []
        false = .error .accumConfigError :=
  ⟨rfl, rfl, rfl⟩

/-- C7 (amended).  An unknown dynamic-sizing target is detected eagerly:
the pre-loop validation rejects any configuration whose target dict has a
key outside `{wall_time, memory}` and accepts any whose keys are all
known (with compression set and a usable environment file), regardless of
`chunks_per_accum` and `chunks_accum_in_mem`; those two are only
validated inside `_submit_accum_tasks`, which raises whenever either is
below 2 — after the control loop has started, not before task
submission. -/
theorem C7_config_checks :
    (∀ (cfg : ExecutorConfig) (d : TargetsDict), cfg.dynamic_chunksize = some d →
        (∃ k ∈ d.map fun kv => kv.1, ¬(k = "wall_time" ∨ k = "memory")) →
        workQueueMainPreChecks cfg = .error .unknownTargetKeyError)
    ∧ (∀ (cfg : ExecutorConfig) (d : TargetsDict), cfg.dynamic_chunksize = some d →
        (∀ k ∈ d.map fun kv => kv.1, k = "wall_time" ∨ k = "memory") →
        cfg.compression ≠ none →
        (∀ ef, cfg.environment_file = some ef → ef.wrapper = true) →
        workQueueMainPreChecks cfg = .ok ())
    ∧ (∀ (cpa caim : ℕ) (pending : List PendingTask) (force : Bool),
        cpa < 2 ∨ caim < 2 →
        _submit_accum_tasks cpa caim pending force = .error .accumConfigError) := by
  refine ⟨?_, ?_, ?_⟩
  · intro cfg d hd hex
    unfold workQueueMainPreChecks
    rw [hd,
      show _check_dynamic_chunksize_targets (some d) =
        checkTargetKeys (d.map fun kv => kv.1) from rfl,
      checkTargetKeys_error _ hex]
    rfl
  · intro cfg d hd hall hcomp henv
    unfold workQueueMainPreChecks
    rw [hd,
      show _check_dynamic_chunksize_targets (some d) =
        checkTargetKeys (d.map fun kv => kv.1) from rfl,
      checkTargetKeys_ok _ hall]
    rcases he : cfg.environment_file with _ | ef <;>
      rcases hc : cfg.compression with _ | cv
    · exact absurd hc hcomp
    · simp [he, hc]
    · exact absurd hc hcomp
    · simp [he, hc, henv ef he]
  · intro cpa caim pending force h
    unfold _submit_accum_tasks
    rw [if_pos h]

/-- Witness for C7 (amended): a config with target key `"disk"` is
rejected eagerly; `cfgLazyAccum` (`chunks_per_accum = 1`) passes the
pre-loop checks; `_submit_accum_tasks` raises for `chunks_per_accum = 1`. -/
theorem C7_config_checks_witness :
    workQueueMainPreChecks cfgBadTarget = .error .unknownTargetKeyError
    ∧ workQueueMainPreChecks cfgLazyAccum = .ok ()
    ∧ _submit_accum_tasks 1 2 [] false = .error .accumConfigError := by
  obtain ⟨h1, h2, h3⟩ := C7_config_checks
  refine ⟨h1 cfgBadTarget [("disk", 100)] rfl ⟨"disk", by decide, by decide⟩,
    h2 cfgLazyAccum [("wall_time", 3600)] rfl (by decide) (by decide) ?_,
    h3 1 2 [] false (by omega)⟩
  intro ef hef
  simp [cfgLazyAccum] at hef

/-! ### C1 and C8: the power-of-two floor and the sampling step -/

/-- Shared evaluation: `_compute_chunksize(100, None, [])` floors the
untouched base size 100 to the power of two 64. -/
theorem compute_chunksize_base100 : _compute_chunksize 100 none [] = .ok 64 := by
  have h : Nat.log 2 100 = 6 := Nat.log_eq_of_pow_le_of_lt_pow (by norm_num) (by norm_num)
  simp +decide [_compute_chunksize, _chunksizeCandidates, _floor_to_pow2,
    Except.map, List.filterMap, List.min?, Int.floor_ofNat]
  norm_num [h]

/-- C1 counterexample: with no resource targets and no samples the claim
says base 100 is returned unchanged, but `_compute_chunksize` returns its
power-of-two floor 64. -/
theorem C1_counterexample :
    _compute_chunksize 100 none [] = .ok 64
    ∧ _compute_chunksize 100 none [] ≠ .ok 100 := by
  refine ⟨compute_chunksize_base100, ?_⟩
  rw [compute_chunksize_base100]
  simp

/-- C1 (amended).  If `resource_targets` is `None`, or fewer than 2
samples exist, `_compute_chunksize` returns the largest power of two
`≤ base_chunksize` (with a floor of 1) — `base_size` unchanged exactly
when it is itself a power of two.  (An *empty dict* `resource_targets`
behaves the same with fewer than 2 samples; with 2 or more samples it
raises `KeyError` on the mandatory `"memory"` lookup instead.) -/
theorem C1_base_path (base_chunksize : ℕ) (resource_targets : Option TargetsDict)
    (task_reports : List TaskReport)
    (h : resource_targets = none ∨ task_reports.length < 2) :
    _compute_chunksize base_chunksize resource_targets task_reports =
      .ok (_floor_to_pow2 (base_chunksize : ℚ)) := by
  rcases h with h | h
  · subst h
    rfl
  · rcases resource_targets with _ | d
    · rfl
    · unfold _compute_chunksize
      have hcnd : _chunksizeCandidates (some d) task_reports = .ok (none, none) := by
        simp only [_chunksizeCandidates]
        rw [if_neg (by omega)]
      rw [hcnd]
      rfl

/-- Witness for C1 (amended) at base 100, no targets, no samples:
the returned value is the power-of-two floor of 100. -/
theorem C1_base_path_witness :
    _compute_chunksize 100 none [] = .ok (_floor_to_pow2 (100 : ℚ)) :=
  C1_base_path 100 none [] (Or.inl rfl)

/-- `int(max(chunksize / 2, 1))` on a natural `chunksize` is
`max (chunksize / 2) 1` with floor division. -/
theorem sample_half_eq (c : ℕ) : Int.toNat ⌊max ((c : ℚ) / 2) 1⌋ = max (c / 2) 1 := by
  rcases Nat.lt_or_ge c 2 with hc | hc
  · interval_cases c <;> norm_num
  · have h1 : (1 : ℚ) ≤ (c : ℚ) / 2 := by
      rw [le_div_iff (by norm_num)]
      exact_mod_cast by omega
    rw [max_eq_left h1]
    have h2 : ((c : ℚ)) / 2 = ((c : ℤ) : ℚ) / ((2 : ℕ) : ℚ) := by norm_num
    rw [h2, Rat.floor_intCast_div_natCast]
    have h3 : ((c : ℤ) / ((2 : ℕ) : ℤ)).toNat = c / 2 := by omega
    rw [h3]
    exact (max_eq_left (by omega)).symm

/-- The power-of-two floor is exactly the largest power of two `≤ v`. -/
theorem floor_to_pow2_spec (v : ℚ) (hv : 1 ≤ v) :
    (_floor_to_pow2 v : ℚ) ≤ v ∧ v < 2 * (_floor_to_pow2 v : ℚ)
    ∧ ∃ k, _floor_to_pow2 v = 2 ^ k := by
  unfold _floor_to_pow2
  rw [if_neg (not_lt.mpr hv)]
  have hfl : (1 : ℤ) ≤ ⌊v⌋ := Int.le_floor.mpr (by exact_mod_cast hv)
  have hm1 : 1 ≤ Int.toNat ⌊v⌋ := by omega
  have hpowle : 2 ^ Nat.log 2 (Int.toNat ⌊v⌋) ≤ Int.toNat ⌊v⌋ :=
    Nat.pow_log_le_self 2 (by omega)
  have hltpow : Int.toNat ⌊v⌋ < 2 ^ (Nat.log 2 (Int.toNat ⌊v⌋) + 1) :=
    Nat.lt_pow_succ_log_self (by norm_num) _
  have hcast : ((Int.toNat ⌊v⌋ : ℕ) : ℚ) = ((⌊v⌋ : ℤ) : ℚ) := by
    exact_mod_cast congrArg Int.cast (Int.toNat_of_nonneg (by omega))
  refine ⟨?_, ?_, ⟨_, rfl⟩⟩
  · have h1 : ((2 ^ Nat.log 2 (Int.toNat ⌊v⌋) : ℕ) : ℚ) ≤ ((Int.toNat ⌊v⌋ : ℕ) : ℚ) := by
      exact_mod_cast hpowle
    have h2 : ((⌊v⌋ : ℤ) : ℚ) ≤ v := Int.floor_le v
    push_cast at h1 ⊢
    rw [hcast] at h1
    linarith
  · have h3 : v < ((⌊v⌋ : ℤ) : ℚ) + 1 := Int.lt_floor_add_one v
    have h4 : ((Int.toNat ⌊v⌋ : ℕ) : ℚ) + 1 ≤ ((2 ^ (Nat.log 2 (Int.toNat ⌊v⌋) + 1) : ℕ) : ℚ) := by
      exact_mod_cast hltpow
    rw [hcast] at h4
    push_cast at h4 ⊢
    rw [pow_succ] at h4
    linarith

/-- The draw outcomes below 90 (of 100) pick the first element. -/
theorem sample_counts (c : ℕ) (hc : 2 ≤ c) :
    ((Finset.range 100).filter fun d => _sample_chunksize d c = c).card = 90
    ∧ ((Finset.range 100).filter fun d => _sample_chunksize d c = max (c / 2) 1).card = 10 := by
  have hne : max (c / 2) 1 ≠ c := by omega
  have heval : ∀ d, _sample_chunksize d c =
      if d % 100 < 90 then c else max (c / 2) 1 := by
    intro d
    unfold _sample_chunksize
    rw [sample_half_eq]
  constructor
  · have hcongr : (Finset.range 100).filter (fun d => _sample_chunksize d c = c) =
        (Finset.range 100).filter (fun d => d % 100 < 90) := by
      apply Finset.filter_congr
      intro d _
      rw [heval d]
      by_cases h : d % 100 < 90
      · simp [h]
      · simp [h, hne]
    rw [hcongr]
    decide
  · have hcongr : (Finset.range 100).filter
        (fun d => _sample_chunksize d c = max (c / 2) 1) =
        (Finset.range 100).filter (fun d => ¬(d % 100 < 90)) := by
      apply Finset.filter_congr
      intro d _
      rw [heval d]
      have hne2 : ¬(c = max (c / 2) 1) := fun he => hne he.symm
      by_cases h : d % 100 < 90
      · simp [h, hne2]
      · simp [h]
    rw [hcongr]
    decide

/-- C8.  Every value `_compute_chunksize` returns is a power of two; for a
computed value `v ≥ 1`, `_floor_to_pow2 v` is the largest power of two
`≤ v` (`1` when `v < 1`); and the emitted size is then sampled as the
floored value on 90 of every 100 equidistributed draws, and as half that
value, floored at 1 (`max (floored / 2) 1`) on the other 10. -/
theorem C8_floor_and_sampling :
    (∀ v : ℚ, 1 ≤ v → (_floor_to_pow2 v : ℚ) ≤ v ∧ v < 2 * (_floor_to_pow2 v : ℚ)
        ∧ ∃ k, _floor_to_pow2 v = 2 ^ k)
    ∧ (∀ v : ℚ, v < 1 → _floor_to_pow2 v = 1)
    ∧ (∀ base targets reports r, _compute_chunksize base targets reports = .ok r →
        ∃ k, r = 2 ^ k)
    ∧ (∀ draw c, _sample_chunksize draw c = c ∨ _sample_chunksize draw c = max (c / 2) 1)
    ∧ (∀ c, 2 ≤ c →
        ((Finset.range 100).filter fun d => _sample_chunksize d c = c).card = 90
        ∧ ((Finset.range 100).filter fun d => _sample_chunksize d c = max (c / 2) 1).card = 10) := by
  have hfloor : ∀ v : ℚ, ∃ k, _floor_to_pow2 v = 2 ^ k := by
    intro v
    by_cases hv : v < 1
    · exact ⟨0, by unfold _floor_to_pow2; rw [if_pos hv, pow_zero]⟩
    · exact (floor_to_pow2_spec v (not_lt.mp hv)).2.2
  refine ⟨fun v hv => floor_to_pow2_spec v hv,
    fun v hv => by unfold _floor_to_pow2; rw [if_pos hv], ?_,
    fun draw c => ?_, sample_counts⟩
  · intro base targets reports r hr
    unfold _compute_chunksize at hr
    rcases hcand : _chunksizeCandidates targets reports with e | cands
    · rw [hcand] at hr
      simp [Except.map] at hr
    · rw [hcand] at hr
      simp only [Except.map] at hr
      injection hr with hr
      exact hr ▸ hfloor _
  · unfold _sample_chunksize
    by_cases h : draw % 100 < 90
    · left
      rw [if_pos h]
    · right
      rw [if_neg h, sample_half_eq]

/-- Witness for C8, at computed value 100 (floored to 64) and draw 7. -/
theorem C8_floor_and_sampling_witness :
    ((_floor_to_pow2 (100 : ℚ) : ℚ) ≤ 100 ∧ (100 : ℚ) < 2 * (_floor_to_pow2 (100 : ℚ) : ℚ)
        ∧ ∃ k, _floor_to_pow2 (100 : ℚ) = 2 ^ k)
    ∧ _floor_to_pow2 (1 / 2 : ℚ) = 1
    ∧ (∃ k, (64 : ℕ) = 2 ^ k)
    ∧ (_sample_chunksize 7 64 = 64 ∨ _sample_chunksize 7 64 = max (64 / 2) 1)
    ∧ (((Finset.range 100).filter fun d => _sample_chunksize d 64 = 64).card = 90
        ∧ ((Finset.range 100).filter fun d => _sample_chunksize d 64 = max (64 / 2) 1).card = 10) := by
  obtain ⟨h1, h2, h3, h4, h5⟩ := C8_floor_and_sampling
  exact ⟨h1 100 (by norm_num), h2 (1 / 2) (by norm_num),
    h3 100 none [] 64 compute_chunksize_base100, h4 7 64, h5 64 (by norm_num)⟩

/-! ### C5: the dynamic estimator with non-empty targets -/

/-- C5 counterexample.  A non-empty `resource_targets` holding only a
`"wall_time"` target, with 2 samples: the claim says the wall-time
projection is computed and returned, but `_compute_chunksize` raises
`KeyError` on the unconditional `resource_targets["memory"]` subscript. -/
theorem C5_counterexample :
    _compute_chunksize 1024 (some [("wall_time", 60)]) [⟨100, 30, -1⟩, ⟨100, 60, -1⟩] =
      .error .memoryKeyError
    ∧ some [("wall_time", (60 : ℚ))] ≠ (none : Option TargetsDict)
    ∧ 2 ≤ ([⟨100, 30, -1⟩, ⟨100, 60, -1⟩] : List TaskReport).length := by
  refine ⟨?_, by simp, by norm_num⟩
  rfl

/-- C5 (amended).  For resource targets containing a `"memory"` key and at
least 2 samples, `_compute_chunksize` succeeds and returns exactly the
spec-phrased estimate `specEstimate`: a projection per dimension among
`wall_time` (optional key) and `memory` whose target value is nonzero,
computed by `_compute_chunksize_target` — which discards samples whose
events-per-resource ratio `events / max(1, resource)` falls *below the
25th percentile of those ratios* (dropping resource-hungry outliers, not
fast ones) and fits events against resource — a zero-valued projection
counting as none; the minimum across the projections, `base_chunksize`
when there is none; the result floored to a power of two (not returned
raw).  Without a `"memory"` key the call raises `KeyError` instead. -/
theorem C5_estimator_amended (base_chunksize : ℕ) (targets : TargetsDict)
    (task_reports : List TaskReport)
    (hmem : ∃ m, targets.lookup "memory" = some m)
    (hlen : 2 ≤ task_reports.length) :
    _compute_chunksize base_chunksize (some targets) task_reports =
      .ok (specEstimate base_chunksize targets task_reports)
    ∧ (∀ targets2 : TargetsDict, targets2.lookup "memory" = none →
        _compute_chunksize base_chunksize (some targets2) task_reports =
          .error .memoryKeyError) := by
  constructor
  · obtain ⟨m, hm⟩ := hmem
    unfold _compute_chunksize
    have hcnd : _chunksizeCandidates (some targets) task_reports =
        .ok (specDimensionEstimate targets "wall_time" (fun r => r.wall_time) task_reports,
             specDimensionEstimate targets "memory" (fun r => r.memory) task_reports) := by
      simp only [_chunksizeCandidates, specDimensionEstimate]
      rw [if_pos (by omega), hm]
      rcases targets.lookup "wall_time" with _ | t <;> rfl
    rw [hcnd]
    rfl
  · intro targets2 h2
    unfold _compute_chunksize
    have hcnd : _chunksizeCandidates (some targets2) task_reports =
        .error .memoryKeyError := by
      simp only [_chunksizeCandidates]
      rw [if_pos (by omega), h2]
    rw [hcnd]
    rfl

/-- Witness for C5 (amended) at concrete targets holding both keys and two
wall-time samples. -/
theorem C5_estimator_amended_witness :
    _compute_chunksize 1024 (some [("wall_time", 60), ("memory", 1000)])
        [⟨100, 30, -1⟩, ⟨100, 60, -1⟩] =
      .ok (specEstimate 1024 [("wall_time", 60), ("memory", 1000)]
        [⟨100, 30, -1⟩, ⟨100, 60, -1⟩])
    ∧ (∀ targets2 : TargetsDict, targets2.lookup "memory" = none →
        _compute_chunksize 1024 (some targets2) [⟨100, 30, -1⟩, ⟨100, 60, -1⟩] =
          .error .memoryKeyError) :=
  C5_estimator_amended 1024 [("wall_time", 60), ("memory", 1000)]
    [⟨100, 30, -1⟩, ⟨100, 60, -1⟩] ⟨1000, rfl⟩ (by norm_num)

end Coffea
